import Mathlib

set_option maxRecDepth 8000

/-! Shallow embedding of the Game-of-Life variant in `src/main.rs`.

The grid is the entry list of the `HashMap<Position, u32>` field `cells`;
hash-map semantics (lookup, overwrite-insert) are modelled on association
lists whose keys are pairwise distinct (`WF`). -/

/-- Cell position, from `struct Position { x: i32, y: i32 }`. -/
structure Position where
  x : Int
  y : Int
deriving DecidableEq, Repr

/-- The eight unit-distance neighbor offsets, from `const DIRS`. -/
def DIRS : List (Int × Int) :=
  [(-1, -1), (0, -1), (1, -1), (-1, 0), (1, 0), (-1, 1), (0, 1), (1, 1)]

/-- Offset a position by a direction, from `Position { x: pos.x + dx, y: pos.y + dy }`. -/
def offset (p : Position) (d : Int × Int) : Position :=
  ⟨p.x + d.1, p.y + d.2⟩

/-- Grid contents: the entry list of the `HashMap<Position, u32>` `cells`. -/
abbrev Grid := List (Position × Nat)

/-- Value stored at a key (first matching entry), the model of `HashMap::get`. -/
def lookup : Grid → Position → Option Nat
  | [], _ => none
  | e :: l, q => if e.1 = q then some e.2 else lookup l q

/-- `HashMap::insert`: the new binding replaces any existing entry for the key. -/
def insertEntry (g : Grid) (p : Position) (v : Nat) : Grid :=
  (p, v) :: g.filter (fun e => decide (e.1 ≠ p))

/-- Hash-map well-formedness: entry keys are pairwise distinct. -/
def WF (g : Grid) : Prop :=
  (g.map Prod.fst).Nodup

/-- The aging pass, from
`cells.par_iter().filter(|(_, &v)| v < 100).map(|(pos, v)| (*pos, v + 1)).collect()`. -/
def age (g : Grid) : Grid :=
  (g.filter fun e => decide (e.2 < 100)).map fun e => (e.1, e.2 + 1)

/-- Neighbor positions generated by the cells with counter exactly 1, from
`self.cells.par_iter().filter(|(_, v)| **v == 1).map(|..| DIRS..).flatten()`. -/
def neighborTargets (g : Grid) : List Position :=
  ((g.filter fun e => decide (e.2 = 1)).map fun e => DIRS.map (offset e.1)).flatten

/-- One step of the fold building the neighbor-count map, from
`*map.entry(pos).or_insert(0) += 1`. -/
def bumpEntry (m : Grid) (p : Position) : Grid :=
  match lookup m p with
  | some c => insertEntry m p (c + 1)
  | none => insertEntry m p 1

/-- The merged neighbor-count map (denotation of the fold/reduce pipeline). -/
def countsMap (g : Grid) : Grid :=
  (neighborTargets g).foldl bumpEntry []

/-- Neighbor-count entries surviving `count > 1 && count < 4`. -/
def bandFiltered (g : Grid) : Grid :=
  (countsMap g).filter fun e => decide (1 < e.2) && decide (e.2 < 4)

/-- One generation, from `Grid::next`: start from the aged map, then for every
filtered neighbor-count entry insert counter 1 when
`count == 3 || (count == 2 && self.cells.get(pos) == Some(&1))`. -/
def next (g : Grid) : Grid :=
  (bandFiltered g).foldl
    (fun m e => if e.2 = 3 ∨ (e.2 = 2 ∧ lookup g e.1 = some 1) then insertEntry m e.1 1 else m)
    (age g)

/-- Iterated stepping (`grid = grid.next()` once per frame). -/
def stepN : Nat → Grid → Grid
  | 0, g => g
  | n + 1, g => stepN n (next g)

/-- Number of the 8 unit-distance neighbors of `q` holding counter exactly 1,
written from the specification text for comparison with the code's pipeline. -/
def liveNeighborCount (g : Grid) (q : Position) : Nat :=
  DIRS.countP fun d => decide (lookup g (offset q d) = some 1)

/-- Multiset denotation of the neighbor-count map. -/
def countFun (g : Grid) : Position → Nat :=
  fun q => (neighborTargets g).count q

/-- Merging two partial neighbor-count maps by summing counts for shared keys,
the denotation of the `reduce` merge in `Grid::next`. -/
def mergeCounts (f1 f2 : Position → Nat) : Position → Nat :=
  fun q => f1 q + f2 q

/-- The signed 32-bit machine-integer range of the `i32` coordinate fields. -/
def InI32 (n : Int) : Prop :=
  -(2 ^ 31) ≤ n ∧ n < 2 ^ 31

/-- The combined key hashed by `impl Hash for Position`:
`((self.x as i64) << 32) | (self.y as i64)`, as its 64-bit pattern.
`y as i64` sign-extends, and `<< 32` keeps the low 64 bits of `x * 2^32`. -/
def hashKey (p : Position) : Nat :=
  (p.x * 2 ^ 32 % 2 ^ 64).toNat ||| (p.y % 2 ^ 64).toNat

/-- A packed RGB pixel, from `image::Rgb<u8>`. -/
structure Rgb where
  r : Nat
  g : Nat
  b : Nat
deriving DecidableEq, Repr

/-- The color ramp `Grid::color`; the catch-all arm computes the wrapping `u8`
subtraction `100 - val as u8`. -/
def color (val : Nat) : Rgb :=
  match val with
  | 1 => ⟨255, 255, 255⟩
  | 2 => ⟨0, 255, 255⟩
  | 3 => ⟨0, 100, 255⟩
  | 4 => ⟨0, 0, 255⟩
  | 5 => ⟨0, 0, 230⟩
  | 6 => ⟨0, 0, 200⟩
  | 7 => ⟨0, 0, 150⟩
  | 8 => ⟨0, 0, 100⟩
  | _ => ⟨0, 0, (100 + 256 - val % 256) % 256⟩

/-- `f64::round`: round half away from zero.  The coordinates reaching it in
`Grid::to_image` are ratios of machine integers, modelled exactly in `ℚ`. -/
def roundQ (q : ℚ) : Int :=
  if 0 ≤ q then ⌊q + 1 / 2⌋ else ⌈q - 1 / 2⌉

/-- `ImageBuffer::put_pixel` on a buffer modelled as its pixel map. -/
def putPixel (img : Nat × Nat → Rgb) (pix : Nat × Nat) (c : Rgb) : Nat × Nat → Rgb :=
  fun p => if p = pix then c else img p

/-- `ImageBuffer::new` produces a zero-filled (black) buffer. -/
def blackImage : Nat × Nat → Rgb :=
  fun _ => ⟨0, 0, 0⟩

/-- The body of the per-cell loop of `Grid::to_image`. -/
def drawCell (width height cx cy : Int) (ppc : ℚ) (img : Nat × Nat → Rgb)
    (e : Position × Nat) : Nat × Nat → Rgb :=
  let xr : ℚ := ((e.1.x - cx : Int) : ℚ) * ppc + (width : ℚ) / 2
  let yr : ℚ := ((e.1.y - cy : Int) : ℚ) * ppc + (height : ℚ) / 2
  let x : Int := roundQ xr
  let y : Int := roundQ yr
  if ppc < 2 then
    if 0 ≤ x ∧ x < width ∧ 0 ≤ y ∧ y < height then
      putPixel img (x.toNat, y.toNat) (color e.2)
    else img
  else
    let m : Nat := (⌊ppc⌋).toNat
    (List.range (m - 1)).foldl (fun img1 k1 =>
      (List.range (m - 1)).foldl (fun img2 k2 =>
        let i : Int := (k1 : Int) + 1
        let j : Int := (k2 : Int) + 1
        if 0 ≤ x + i ∧ x + i < width ∧ 0 ≤ y + j ∧ y + j < height then
          putPixel img2 ((x + i).toNat, (y + j).toNat) (color e.2)
        else img2) img1) img

/-- `Grid::to_image`: draw every cell over a fresh zero-filled buffer. -/
def toImage (g : Grid) (width height cx cy : Int) (ppc : ℚ) : Nat × Nat → Rgb :=
  g.foldl (drawCell width height cx cy ppc) blackImage

/-! Seed parsing, `Grid::from_str`.  Strings are modelled as `List Char`;
a load that would `panic!` via `unwrap()` is modelled as `none`. -/

/-- Split on occurrences of the pattern `"#P"` (`str::split("#P")`),
non-overlapping, leftmost first. -/
def splitHashP : List Char → List (List Char)
  | [] => [[]]
  | '#' :: 'P' :: rest => [] :: splitHashP rest
  | c :: rest =>
    match splitHashP rest with
    | [] => [[c]]
    | h :: t => (c :: h) :: t

/-- The block texts processed by `from_str`: `str.split("#P").skip(1)`. -/
def blocksOf (s : List Char) : List (List Char) :=
  (splitHashP s).drop 1

/-- Split at every newline, keeping empty pieces. -/
def splitNl : List Char → List (List Char)
  | [] => [[]]
  | '\n' :: rest => [] :: splitNl rest
  | c :: rest =>
    match splitNl rest with
    | [] => [[c]]
    | h :: t => (c :: h) :: t

/-- Strip one trailing carriage return, as `str::lines` does. -/
def stripCr (l : List Char) : List Char :=
  if l.getLast? = some '\r' then l.dropLast else l

/-- `str::lines`: split at `'\n'`, the final line ending optional,
lines ending in `"\r\n"` stripped of the `'\r'`. -/
def rustLines (s : List Char) : List (List Char) :=
  if s = [] then []
  else
    let ps := splitNl s
    (if ps.getLast? = some [] then ps.dropLast else ps).map stripCr

/-- ASCII whitespace, the class used by `split_ascii_whitespace`. -/
def isAsciiWs (c : Char) : Bool :=
  c = ' ' ∨ c = '\t' ∨ c = '\n' ∨ c = '\x0c' ∨ c = '\r'

/-- Accumulator-based splitter for `split_ascii_whitespace`: no empty tokens. -/
def splitWsAux : List Char → List Char → List (List Char)
  | [], acc => if acc = [] then [] else [acc.reverse]
  | c :: rest, acc =>
    if isAsciiWs c then
      if acc = [] then splitWsAux rest [] else acc.reverse :: splitWsAux rest []
    else splitWsAux rest (c :: acc)

/-- `str::split_ascii_whitespace`. -/
def splitWs (s : List Char) : List (List Char) :=
  splitWsAux s []

/-- Decimal digit value of an ASCII character. -/
def digitVal (c : Char) : Option Nat :=
  if '0' ≤ c ∧ c ≤ '9' then some (c.toNat - '0'.toNat) else none

/-- Parse a nonempty run of decimal digits. -/
def parseDigits (cs : List Char) : Option Nat :=
  match cs with
  | [] => none
  | _ => cs.foldlM (fun acc c => (digitVal c).map fun d => acc * 10 + d) 0

/-- `str::parse::<i32>`: optional sign, decimal digits, value within `i32`. -/
def parseI32 (cs : List Char) : Option Int :=
  match cs with
  | '+' :: rest =>
    (parseDigits rest).bind fun n => if n ≤ 2 ^ 31 - 1 then some (n : Int) else none
  | '-' :: rest =>
    (parseDigits rest).bind fun n => if n ≤ 2 ^ 31 then some (-(n : Int)) else none
  | rest =>
    (parseDigits rest).bind fun n => if n ≤ 2 ^ 31 - 1 then some (n : Int) else none

/-- Read a block's origin: first line, first two whitespace-separated tokens,
both parsed as `i32` (`lines.next().unwrap()`, `pos.next().unwrap().parse()`). -/
def readOrigin (blk : List Char) : Option (Int × Int) :=
  match rustLines blk with
  | [] => none
  | first :: _ =>
    match splitWs first with
    | t0 :: t1 :: _ =>
      (parseI32 t0).bind fun x => (parseI32 t1).bind fun y => some (x, y)
    | _ => none

/-- The inner loop over one row's characters:
`for (j,_) in line.chars().enumerate().filter(|(_,c)| *c == '*')`. -/
def processRowAux (x y : Int) (i : Nat) : Grid → Nat → List Char → Grid
  | g, _, [] => g
  | g, j, c :: rest =>
    processRowAux x y i
      (if c = '*' then insertEntry g ⟨x + (j : Int), y + (i : Int)⟩ 1 else g) (j + 1) rest

/-- The outer loop over a block's rows: `for (i,line) in lines.enumerate()`. -/
def processRows (x y : Int) : Grid → Nat → List (List Char) → Grid
  | g, _, [] => g
  | g, i, line :: rest => processRows x y (processRowAux x y i g 0 line) (i + 1) rest

/-- Process one block of the seed file, `none` on an `unwrap` panic. -/
def processBlockOpt (g : Grid) (blk : List Char) : Option Grid :=
  (readOrigin blk).bind fun xy =>
    some (processRows xy.1 xy.2 g 0 ((rustLines blk).drop 1))

/-- `Grid::from_str`, with `unwrap` panics modelled as `none`. -/
def fromStr (s : List Char) : Option Grid :=
  (blocksOf s).foldlM processBlockOpt []

/-- Star positions of a block, written from the specification text: a `*` at
0-indexed column `j` of 0-indexed row `i` marks the cell `(x + j, y + i)`. -/
def starAt (x y : Int) (rows : List (List Char)) (q : Position) : Bool :=
  rows.enum.any fun il =>
    il.2.enum.any fun jc =>
      decide (jc.2 = '*' ∧ q.x = x + (jc.1 : Int) ∧ q.y = y + (il.1 : Int))

/-! Association-list lemmas for the hash-map model. -/

theorem lookup_filter_keyne (g : Grid) (p q : Position) (h : ¬p = q) :
    lookup (g.filter fun e => decide (e.1 ≠ p)) q = lookup g q := by
  induction g with
  | nil => rfl
  | cons e l ih =>
    rw [List.filter_cons]
    by_cases he : e.1 = p
    · have hq : ¬e.1 = q := fun hc => h (he ▸ hc)
      rw [if_neg (by simp [he]), ih]
      simp [lookup, hq]
    · rw [if_pos (by simp [he])]
      by_cases hq : e.1 = q
      · simp [lookup, hq]
      · simp only [lookup, if_neg hq]
        exact ih

theorem lookup_insertEntry (g : Grid) (p : Position) (v : Nat) (q : Position) :
    lookup (insertEntry g p v) q = if p = q then some v else lookup g q := by
  by_cases h : p = q
  · simp [insertEntry, lookup, h]
  · simp only [insertEntry, lookup]
    rw [if_neg h, if_neg h, lookup_filter_keyne g p q h]

theorem WF_filter (g : Grid) (P : Position × Nat → Bool) (hg : WF g) :
    WF (g.filter P) :=
  List.Nodup.sublist ((List.filter_sublist g).map Prod.fst) hg

theorem WF_insertEntry (g : Grid) (p : Position) (v : Nat) (hg : WF g) :
    WF (insertEntry g p v) := by
  refine List.Nodup.cons ?_ (WF_filter g _ hg)
  intro hmem
  rcases List.mem_map.mp hmem with ⟨e, he, hfst⟩
  rcases List.mem_filter.mp he with ⟨_, hne⟩
  exact (decide_eq_true_eq.mp hne) hfst

theorem lookup_eq_none_iff (g : Grid) (q : Position) :
    lookup g q = none ↔ q ∉ g.map Prod.fst := by
  induction g with
  | nil => simp [lookup]
  | cons e l ih =>
    simp only [List.map_cons, List.mem_cons]
    by_cases h : e.1 = q
    · simp [lookup, h]
    · simp only [lookup, if_neg h, ih]
      constructor
      · intro hn hc
        rcases hc with hc | hc
        · exact h hc.symm
        · exact hn hc
      · intro hn hc
        exact hn (Or.inr hc)

theorem lookup_eq_some_iff (g : Grid) (q : Position) (v : Nat) (hg : WF g) :
    lookup g q = some v ↔ (q, v) ∈ g := by
  induction g with
  | nil => simp [lookup]
  | cons e l ih =>
    have hl : WF l := List.Nodup.of_cons hg
    have hk : e.1 ∉ l.map Prod.fst := (List.nodup_cons.mp hg).1
    by_cases h : e.1 = q
    · subst h
      constructor
      · intro hv
        have hv2 : e.2 = v := by simpa [lookup] using hv
        subst hv2
        exact List.mem_cons_self e l
      · intro hv
        rcases List.mem_cons.mp hv with heq | hmem
        · have hv2 : v = e.2 := congrArg Prod.snd heq
          simp [lookup, hv2]
        · exact absurd (List.mem_map.mpr ⟨(e.1, v), hmem, rfl⟩) hk
    · constructor
      · intro hv
        simp only [lookup, if_neg h] at hv
        exact List.mem_cons_of_mem e ((ih hl).mp hv)
      · intro hv
        rcases List.mem_cons.mp hv with heq | hmem
        · exact absurd (congrArg Prod.fst heq.symm) h
        · simp only [lookup, if_neg h]
          exact (ih hl).mpr hmem

theorem WF_perm (g1 g2 : Grid) (hp : g1.Perm g2) (hg : WF g1) : WF g2 :=
  ((hp.map Prod.fst).nodup_iff).mp hg

theorem lookup_perm (g1 g2 : Grid) (hp : g1.Perm g2) (hg : WF g1) (q : Position) :
    lookup g1 q = lookup g2 q := by
  cases hv : lookup g1 q with
  | none =>
    symm
    rw [lookup_eq_none_iff] at hv ⊢
    exact fun hc => hv ((hp.map Prod.fst).mem_iff.mpr hc)
  | some v =>
    symm
    rw [lookup_eq_some_iff g1 q v hg] at hv
    rw [lookup_eq_some_iff g2 q v (WF_perm g1 g2 hp hg)]
    exact hp.mem_iff.mp hv

theorem lookup_filter_val (g : Grid) (P : Nat → Bool) (q : Position) (hg : WF g) :
    lookup (g.filter fun e => P e.2) q
      = (lookup g q).bind fun v => if P v then some v else none := by
  induction g with
  | nil => simp [lookup]
  | cons e l ih =>
    have hl : WF l := hg.of_cons
    have hk : e.1 ∉ l.map Prod.fst := (List.nodup_cons.mp hg).1
    by_cases h : e.1 = q
    · subst h
      have hnone : lookup l e.1 = none := (lookup_eq_none_iff l e.1).mpr hk
      by_cases hP : P e.2
      · simp [List.filter_cons, hP, lookup]
      · have : lookup (l.filter fun e => P e.2) e.1 = none := by
          rw [lookup_eq_none_iff]
          intro hc
          rcases List.mem_map.mp hc with ⟨e2, he2, hfst⟩
          exact hk (List.mem_map.mpr ⟨e2, (List.mem_filter.mp he2).1, hfst⟩)
        simp [List.filter_cons, hP, lookup, this]
    · by_cases hP : P e.2
      · simp [List.filter_cons, hP, lookup, h, ih hl]
      · simp [List.filter_cons, hP, lookup, h, ih hl]

theorem lookup_map_val (g : Grid) (f : Nat → Nat) (q : Position) :
    lookup (g.map fun e => (e.1, f e.2)) q = (lookup g q).map f := by
  induction g with
  | nil => simp [lookup]
  | cons e l ih =>
    by_cases h : e.1 = q
    · simp [lookup, h]
    · simp [lookup, h, ih]

theorem lookup_age (g : Grid) (q : Position) (hg : WF g) :
    lookup (age g) q = (lookup g q).bind fun v => if v < 100 then some (v + 1) else none := by
  unfold age
  simp only [lookup_map_val (g.filter fun e => decide (e.2 < 100)) (fun v => v + 1) q,
    lookup_filter_val g (fun v => decide (v < 100)) q hg]
  cases lookup g q with
  | none => rfl
  | some v =>
    by_cases h : v < 100
    · simp [h]
    · simp [h]

theorem WF_map_val (g : Grid) (f : Nat → Nat) (hg : WF g) :
    WF (g.map fun e => (e.1, f e.2)) := by
  have heq : (g.map fun e => (e.1, f e.2)).map Prod.fst = g.map Prod.fst := by
    simp [List.map_map]
  unfold WF
  rw [heq]
  exact hg

theorem WF_age (g : Grid) (hg : WF g) : WF (age g) :=
  WF_map_val _ _ (WF_filter g _ hg)

/-! The neighbor-count fold and the `next` characterization. -/

theorem lookup_bumpEntry (m : Grid) (p q : Position) :
    lookup (bumpEntry m p) q
      = if p = q then some ((lookup m p).getD 0 + 1) else lookup m q := by
  cases h : lookup m p with
  | none => simp [bumpEntry, h, lookup_insertEntry]
  | some c => simp [bumpEntry, h, lookup_insertEntry]

theorem WF_bumpEntry (m : Grid) (p : Position) (hm : WF m) : WF (bumpEntry m p) := by
  unfold bumpEntry
  cases lookup m p with
  | none => exact WF_insertEntry m p 1 hm
  | some c => exact WF_insertEntry m p (c + 1) hm

theorem WF_foldl_bumpEntry (ts : List Position) (m : Grid) (hm : WF m) :
    WF (ts.foldl bumpEntry m) := by
  induction ts generalizing m with
  | nil => exact hm
  | cons t ts ih => exact ih (bumpEntry m t) (WF_bumpEntry m t hm)

theorem lookup_foldl_bumpEntry (ts : List Position) (m : Grid) (q : Position) :
    lookup (ts.foldl bumpEntry m) q
      = if ts.count q = 0 then lookup m q
        else some ((lookup m q).getD 0 + ts.count q) := by
  induction ts generalizing m with
  | nil => simp
  | cons t ts ih =>
    rw [List.foldl_cons, ih (bumpEntry m t)]
    by_cases ht : t = q
    · subst ht
      rw [List.count_cons_self]
      have hb : lookup (bumpEntry m t) t = some ((lookup m t).getD 0 + 1) := by
        simp [lookup_bumpEntry]
      rw [hb]
      by_cases hc : ts.count t = 0
      · simp [hc]
      · rw [if_neg hc, if_neg (by omega)]
        exact congrArg some (by simp; omega)
    · have hb : lookup (bumpEntry m t) q = lookup m q := by
        simp [lookup_bumpEntry, ht]
      rw [hb, List.count_cons_of_ne (fun hc => ht hc.symm)]

theorem lookup_countsMap (g : Grid) (q : Position) :
    lookup (countsMap g) q
      = if countFun g q = 0 then none else some (countFun g q) := by
  unfold countsMap countFun
  rw [lookup_foldl_bumpEntry]
  simp [lookup]

theorem WF_countsMap (g : Grid) : WF (countsMap g) :=
  WF_foldl_bumpEntry _ [] (by simp [WF])

theorem WF_bandFiltered (g : Grid) : WF (bandFiltered g) :=
  WF_filter _ _ (WF_countsMap g)

theorem lookup_bandFiltered (g : Grid) (q : Position) :
    lookup (bandFiltered g) q
      = (lookup (countsMap g) q).bind
          fun c => if 1 < c ∧ c < 4 then some c else none := by
  unfold bandFiltered
  simp only [lookup_filter_val (countsMap g)
    (fun c => decide (1 < c) && decide (c < 4)) q (WF_countsMap g)]
  cases lookup (countsMap g) q with
  | none => rfl
  | some c =>
    by_cases h1 : 1 < c
    · by_cases h2 : c < 4
      · simp [h1, h2]
      · simp [h1, h2]
    · simp [h1]

theorem lookup_foldl_births (g : Grid) (fs : List (Position × Nat)) (m : Grid)
    (q : Position) (hfs : WF fs) :
    lookup (fs.foldl (fun m e => if e.2 = 3 ∨ (e.2 = 2 ∧ lookup g e.1 = some 1)
        then insertEntry m e.1 1 else m) m) q
      = match lookup fs q with
        | some c => if c = 3 ∨ (c = 2 ∧ lookup g q = some 1) then some 1 else lookup m q
        | none => lookup m q := by
  induction fs generalizing m with
  | nil => simp [lookup]
  | cons e fs ih =>
    have hfs2 : WF fs := List.Nodup.of_cons hfs
    have hk : e.1 ∉ fs.map Prod.fst := (List.nodup_cons.mp hfs).1
    rw [List.foldl_cons, ih _ hfs2]
    by_cases h : e.1 = q
    · subst h
      have hnone : lookup fs e.1 = none := (lookup_eq_none_iff fs e.1).mpr hk
      rw [hnone]
      simp only [lookup, if_pos rfl]
      by_cases hcond : e.2 = 3 ∨ (e.2 = 2 ∧ lookup g e.1 = some 1)
      · simp [hcond, lookup_insertEntry]
      · simp [hcond]
    · cases hf : lookup fs q with
      | none =>
        simp only [lookup, if_neg h]
        rw [hf]
        by_cases hcond : e.2 = 3 ∨ (e.2 = 2 ∧ lookup g e.1 = some 1)
        · simp [hcond, lookup_insertEntry, h]
        · simp [hcond]
      | some c =>
        simp only [lookup, if_neg h]
        rw [hf]
        by_cases hcond : e.2 = 3 ∨ (e.2 = 2 ∧ lookup g e.1 = some 1)
        · simp [hcond, lookup_insertEntry, h]
        · simp [hcond]

theorem WF_foldl_births (g : Grid) (fs : List (Position × Nat)) (m : Grid) (hm : WF m) :
    WF (fs.foldl (fun m e => if e.2 = 3 ∨ (e.2 = 2 ∧ lookup g e.1 = some 1)
        then insertEntry m e.1 1 else m) m) := by
  induction fs generalizing m with
  | nil => exact hm
  | cons e fs ih =>
    rw [List.foldl_cons]
    by_cases hcond : e.2 = 3 ∨ (e.2 = 2 ∧ lookup g e.1 = some 1)
    · rw [if_pos hcond]
      exact ih _ (WF_insertEntry m e.1 1 hm)
    · rw [if_neg hcond]
      exact ih _ hm

theorem WF_next (g : Grid) (hg : WF g) : WF (next g) :=
  WF_foldl_births g (bandFiltered g) (age g) (WF_age g hg)

theorem lookup_next (g : Grid) (q : Position) (hg : WF g) :
    lookup (next g) q
      = if countFun g q = 3 ∨ (countFun g q = 2 ∧ lookup g q = some 1) then some 1
        else lookup (age g) q := by
  unfold next
  rw [lookup_foldl_births g (bandFiltered g) (age g) q (WF_bandFiltered g)]
  rw [lookup_bandFiltered, lookup_countsMap]
  by_cases h0 : countFun g q = 0
  · simp [h0]
  · by_cases hband : 1 < countFun g q ∧ countFun g q < 4
    · simp [h0, hband]
    · have h3 : ¬(countFun g q = 3) := by omega
      have h2 : ¬(countFun g q = 2) := by omega
      simp [h0, hband, h3, h2]

/-! The multiset neighbor count agrees with the per-position count of live
neighbors described by the specification. -/

theorem neg_mem_DIRS (a b : Int) (h : (a, b) ∈ DIRS) : (-a, -b) ∈ DIRS := by
  simp only [DIRS, List.mem_cons, List.not_mem_nil, or_false, Prod.ext_iff] at h ⊢
  omega

theorem offset_injective (p : Position) : Function.Injective (offset p) := by
  intro d1 d2 h
  have hx := congrArg Position.x h
  have hy := congrArg Position.y h
  simp only [offset] at hx hy
  rw [Prod.ext_iff]
  omega

theorem nodup_nbrs (p : Position) : (DIRS.map (offset p)).Nodup :=
  List.Nodup.map (offset_injective p) (by decide)

theorem mem_nbrs_iff (p q : Position) :
    q ∈ DIRS.map (offset p) ↔ (q.x - p.x, q.y - p.y) ∈ DIRS := by
  constructor
  · intro hm
    rcases List.mem_map.mp hm with ⟨d, hd, hoff⟩
    have h1 : d.1 = q.x - p.x := by
      have hx := congrArg Position.x hoff
      simp only [offset] at hx
      omega
    have h2 : d.2 = q.y - p.y := by
      have hy := congrArg Position.y hoff
      simp only [offset] at hy
      omega
    rw [← h1, ← h2]
    simpa using hd
  · intro hd
    refine List.mem_map.mpr ⟨(q.x - p.x, q.y - p.y), hd, ?_⟩
    obtain ⟨qx, qy⟩ := q
    simp only [offset, Position.mk.injEq]
    omega

theorem neighborTargets_cons (e : Position × Nat) (l : Grid) :
    neighborTargets (e :: l)
      = (if e.2 = 1 then DIRS.map (offset e.1) else []) ++ neighborTargets l := by
  unfold neighborTargets
  by_cases h : e.2 = 1
  · simp [List.filter_cons, h]
  · simp [List.filter_cons, h]

theorem countFun_cons (e : Position × Nat) (l : Grid) (q : Position) :
    countFun (e :: l) q
      = (if e.2 = 1 ∧ (q.x - e.1.x, q.y - e.1.y) ∈ DIRS then 1 else 0) + countFun l q := by
  unfold countFun
  rw [neighborTargets_cons, List.count_append]
  congr 1
  by_cases h : e.2 = 1
  · rw [if_pos h]
    by_cases hm : q ∈ DIRS.map (offset e.1)
    · rw [List.count_eq_one_of_mem (nodup_nbrs e.1) hm,
        if_pos ⟨h, (mem_nbrs_iff e.1 q).mp hm⟩]
    · rw [List.count_eq_zero_of_not_mem hm,
        if_neg (fun hc => hm ((mem_nbrs_iff e.1 q).mpr hc.2))]
  · simp [h]

theorem countP_cons_entry (e : Position × Nat) (l : Grid) (q : Position)
    (hk : lookup l e.1 = none) (ds : List (Int × Int)) :
    (ds.countP fun d => decide (lookup (e :: l) (offset q d) = some 1))
      = (ds.countP fun d => decide (lookup l (offset q d) = some 1))
        + ds.countP fun d => decide (offset q d = e.1 ∧ e.2 = 1) := by
  induction ds with
  | nil => rfl
  | cons d ds ih =>
    simp only [List.countP_cons, ih]
    by_cases hd : offset q d = e.1
    · have hnew : lookup (e :: l) e.1 = some e.2 := by
        simp [lookup]
      by_cases h1 : e.2 = 1
      · simp [hd, hnew, hk, h1]
        omega
      · simp [hd, hnew, hk, h1]
    · have hne : ¬e.1 = offset q d := fun h => hd h.symm
      have hnew : lookup (e :: l) (offset q d) = lookup l (offset q d) := by
        simp only [lookup, if_neg hne]
      simp only [hnew, hd]
      by_cases hl : lookup l (offset q d) = some 1
      · simp [hl, hd]
        omega
      · simp [hl, hd]

theorem countP_eq_ite_mem (ds : List (Int × Int)) (d0 : Int × Int) (hnd : ds.Nodup) :
    (ds.countP fun d => decide (d = d0)) = if d0 ∈ ds then 1 else 0 := by
  induction ds with
  | nil => simp
  | cons d ds ih =>
    rw [List.countP_cons, ih (List.Nodup.of_cons hnd)]
    by_cases h : d = d0
    · subst h
      have hnm : d ∉ ds := (List.nodup_cons.mp hnd).1
      simp [hnm]
    · have hne : ¬d0 = d := fun hc => h hc.symm
      simp [h, hne]

theorem liveNeighborCount_cons (e : Position × Nat) (l : Grid) (q : Position)
    (hk : lookup l e.1 = none) :
    liveNeighborCount (e :: l) q
      = (if e.2 = 1 ∧ (e.1.x - q.x, e.1.y - q.y) ∈ DIRS then 1 else 0)
        + liveNeighborCount l q := by
  unfold liveNeighborCount
  rw [countP_cons_entry e l q hk DIRS, Nat.add_comm]
  congr 1
  by_cases h1 : e.2 = 1
  · simp only [h1, and_true, true_and]
    have hpred : (DIRS.countP fun d => decide (offset q d = e.1))
        = DIRS.countP fun d => decide (d = (e.1.x - q.x, e.1.y - q.y)) := by
      refine List.countP_congr ?_
      intro d _
      have hiff : (offset q d = e.1) ↔ (d = (e.1.x - q.x, e.1.y - q.y)) := by
        obtain ⟨ex, ey⟩ := e.1
        obtain ⟨d1, d2⟩ := d
        simp only [offset, Position.mk.injEq, Prod.ext_iff]
        omega
      simp [hiff]
    rw [hpred, countP_eq_ite_mem DIRS _ (by decide)]
  · simp [h1]

theorem countFun_eq_liveNeighborCount (g : Grid) (q : Position) (hg : WF g) :
    countFun g q = liveNeighborCount g q := by
  induction g with
  | nil => rfl
  | cons e l ih =>
    have hl : WF l := List.Nodup.of_cons hg
    have hk : e.1 ∉ l.map Prod.fst := (List.nodup_cons.mp hg).1
    have hkn : lookup l e.1 = none := (lookup_eq_none_iff l e.1).mpr hk
    rw [countFun_cons, liveNeighborCount_cons e l q hkn, ih hl]
    congr 1
    by_cases h1 : e.2 = 1
    · simp only [h1, true_and]
      by_cases hm : (q.x - e.1.x, q.y - e.1.y) ∈ DIRS
      · have hm2 := neg_mem_DIRS _ _ hm
        simp only [Int.neg_sub] at hm2
        rw [if_pos hm, if_pos hm2]
      · have hm2 : (e.1.x - q.x, e.1.y - q.y) ∉ DIRS := by
          intro hc
          have := neg_mem_DIRS _ _ hc
          simp only [Int.neg_sub] at this
          exact hm this
        rw [if_neg hm, if_neg hm2]
    · simp [h1]

/-! Order independence of the step. -/

theorem neighborTargets_perm (l1 l2 : Grid) (hp : l1.Perm l2) :
    (neighborTargets l1).Perm (neighborTargets l2) := by
  unfold neighborTargets
  exact ((hp.filter _).map _).flatten

theorem countFun_perm (l1 l2 : Grid) (hp : l1.Perm l2) (q : Position) :
    countFun l1 q = countFun l2 q :=
  (neighborTargets_perm l1 l2 hp).count_eq q

theorem age_perm (l1 l2 : Grid) (hp : l1.Perm l2) : (age l1).Perm (age l2) :=
  (hp.filter _).map _

theorem lookup_next_perm (l1 l2 : Grid) (hp : l1.Perm l2) (hg : WF l1) (q : Position) :
    lookup (next l1) q = lookup (next l2) q := by
  have hg2 : WF l2 := WF_perm l1 l2 hp hg
  rw [lookup_next l1 q hg, lookup_next l2 q hg2]
  rw [countFun_perm l1 l2 hp q, lookup_perm l1 l2 hp hg q,
    lookup_perm (age l1) (age l2) (age_perm l1 l2 hp) (WF_age l1 hg) q]

/-! Rendering a single cell at the camera center with one pixel per cell. -/

theorem roundQ_half_int (w : Int) (hw : 0 ≤ w) : roundQ ((w : ℚ) / 2) = (w + 1) / 2 := by
  unfold roundQ
  rw [if_pos (div_nonneg (by exact_mod_cast hw) (by norm_num))]
  have hcast : (w : ℚ) / 2 + 1 / 2 = ((w + 1 : Int) : ℚ) / ((2 : Nat) : ℚ) := by
    push_cast
    ring
  rw [hcast, Rat.floor_intCast_div_natCast]
  norm_num

theorem toImage_single_center (w h cx cy : Int) (v : Nat) (p : Nat × Nat)
    (hw : 0 ≤ w) (hh : 0 ≤ h) :
    toImage [(⟨cx, cy⟩, v)] w h cx cy 1 p
      = if ((w + 1) / 2 < w ∧ (h + 1) / 2 < h)
          ∧ p = (((w + 1) / 2).toNat, ((h + 1) / 2).toNat)
        then color v else ⟨0, 0, 0⟩ := by
  unfold toImage
  rw [List.foldl_cons, List.foldl_nil]
  unfold drawCell
  simp only [sub_self, Int.cast_zero, zero_mul, zero_add, mul_one]
  rw [if_pos (by norm_num : (1 : ℚ) < 2)]
  rw [roundQ_half_int w hw, roundQ_half_int h hh]
  by_cases hbx : (w + 1) / 2 < w
  · by_cases hby : (h + 1) / 2 < h
    · rw [if_pos ⟨by omega, hbx, by omega, hby⟩]
      unfold putPixel
      by_cases hp : p = (((w + 1) / 2).toNat, ((h + 1) / 2).toNat)
      · rw [if_pos hp, if_pos ⟨⟨hbx, hby⟩, hp⟩]
      · rw [if_neg hp, if_neg (fun hc => hp hc.2)]
        rfl
    · rw [if_neg (fun hc => hby hc.2.2.2), if_neg (fun hc => hby hc.1.2)]
      rfl
  · rw [if_neg (fun hc => hbx hc.2.1), if_neg (fun hc => hbx hc.1.1)]
    rfl

/-! Seed-parsing characterization. -/

theorem mk_eq_iff (a b : Int) (q : Position) :
    (⟨a, b⟩ : Position) = q ↔ q.x = a ∧ q.y = b := by
  obtain ⟨qx, qy⟩ := q
  simp only [Position.mk.injEq]
  constructor
  · intro hq
    exact ⟨hq.1.symm, hq.2.symm⟩
  · intro hq
    exact ⟨hq.1.symm, hq.2.symm⟩

theorem WF_processRowAux (x y : Int) (i : Nat) (g : Grid) (j : Nat) (cs : List Char)
    (hg : WF g) : WF (processRowAux x y i g j cs) := by
  induction cs generalizing g j with
  | nil => exact hg
  | cons c rest ih =>
    show WF (processRowAux x y i
      (if c = '*' then insertEntry g ⟨x + (j : Int), y + (i : Int)⟩ 1 else g) (j + 1) rest)
    by_cases hc : c = '*'
    · rw [if_pos hc]
      exact ih _ _ (WF_insertEntry g _ 1 hg)
    · rw [if_neg hc]
      exact ih _ _ hg

theorem lookup_processRowAux (x y : Int) (i : Nat) (g : Grid) (j0 : Nat)
    (cs : List Char) (q : Position) :
    lookup (processRowAux x y i g j0 cs) q
      = if (cs.enumFrom j0).any fun jc =>
            decide (jc.2 = '*' ∧ (⟨x + (jc.1 : Int), y + (i : Int)⟩ : Position) = q)
        then some 1 else lookup g q := by
  induction cs generalizing g j0 with
  | nil => simp [processRowAux]
  | cons c rest ih =>
    rw [show processRowAux x y i g j0 (c :: rest)
        = processRowAux x y i
            (if c = '*' then insertEntry g ⟨x + (j0 : Int), y + (i : Int)⟩ 1 else g)
            (j0 + 1) rest from rfl]
    rw [ih]
    rw [show (c :: rest).enumFrom j0 = (j0, c) :: rest.enumFrom (j0 + 1) from rfl]
    rw [List.any_cons]
    by_cases hrest : (rest.enumFrom (j0 + 1)).any (fun jc =>
        decide (jc.2 = '*' ∧ (⟨x + (jc.1 : Int), y + (i : Int)⟩ : Position) = q)) = true
    · simp only [hrest, Bool.or_true, if_pos]
    · simp only [hrest, Bool.or_false, Bool.false_eq_true, if_false]
      by_cases hc : c = '*'
      · rw [if_pos hc]
        rw [lookup_insertEntry]
        by_cases hq : (⟨x + (j0 : Int), y + (i : Int)⟩ : Position) = q
        · have hcond : decide (c = '*'
              ∧ (⟨x + (j0 : Int), y + (i : Int)⟩ : Position) = q) = true := by
            simp [hc, hq]
          rw [if_pos hq, if_pos hcond]
        · have hcond : ¬decide (c = '*'
              ∧ (⟨x + (j0 : Int), y + (i : Int)⟩ : Position) = q) = true := by
            simp [hq]
          rw [if_neg hq, if_neg hcond]
      · have hcond : ¬decide (c = '*'
            ∧ (⟨x + (j0 : Int), y + (i : Int)⟩ : Position) = q) = true := by
          simp [hc]
        rw [if_neg hc, if_neg hcond]

theorem WF_processRows (x y : Int) (g : Grid) (i : Nat) (rows : List (List Char))
    (hg : WF g) : WF (processRows x y g i rows) := by
  induction rows generalizing g i with
  | nil => exact hg
  | cons line rest ih =>
    show WF (processRows x y (processRowAux x y i g 0 line) (i + 1) rest)
    exact ih _ _ (WF_processRowAux x y i g 0 line hg)

theorem lookup_processRows (x y : Int) (g : Grid) (i0 : Nat)
    (rows : List (List Char)) (q : Position) :
    lookup (processRows x y g i0 rows) q
      = if (rows.enumFrom i0).any fun il =>
            il.2.enum.any fun jc =>
              decide (jc.2 = '*' ∧ q.x = x + (jc.1 : Int) ∧ q.y = y + (il.1 : Int))
        then some 1 else lookup g q := by
  induction rows generalizing g i0 with
  | nil => simp [processRows]
  | cons line rest ih =>
    rw [show processRows x y g i0 (line :: rest)
        = processRows x y (processRowAux x y i0 g 0 line) (i0 + 1) rest from rfl]
    rw [ih]
    rw [show (line :: rest).enumFrom i0 = (i0, line) :: rest.enumFrom (i0 + 1) from rfl]
    rw [List.any_cons]
    by_cases hrest : (rest.enumFrom (i0 + 1)).any (fun il =>
        il.2.enum.any fun jc =>
          decide (jc.2 = '*' ∧ q.x = x + (jc.1 : Int) ∧ q.y = y + (il.1 : Int))) = true
    · simp only [hrest, Bool.or_true, if_pos]
    · simp only [hrest, Bool.or_false, Bool.false_eq_true, if_false]
      rw [lookup_processRowAux]
      have hpred : ((line.enumFrom 0).any fun jc =>
            decide (jc.2 = '*' ∧ (⟨x + (jc.1 : Int), y + (i0 : Int)⟩ : Position) = q))
          = line.enum.any fun jc =>
            decide (jc.2 = '*' ∧ q.x = x + (jc.1 : Int) ∧ q.y = y + (i0 : Int)) := by
        rw [show line.enum = line.enumFrom 0 from rfl]
        congr 1
        funext jc
        exact decide_eq_decide.mpr (and_congr_right fun _ => mk_eq_iff _ _ q)
      rw [hpred]

theorem processBlockOpt_some (g g2 : Grid) (blk : List Char)
    (hp : processBlockOpt g blk = some g2) :
    ∃ x y, readOrigin blk = some (x, y)
      ∧ g2 = processRows x y g 0 ((rustLines blk).drop 1) := by
  unfold processBlockOpt at hp
  cases ho : readOrigin blk with
  | none =>
    rw [ho] at hp
    cases hp
  | some xy =>
    obtain ⟨x, y⟩ := xy
    rw [ho] at hp
    refine ⟨x, y, rfl, ?_⟩
    have hp2 : some (processRows x y g 0 ((rustLines blk).drop 1)) = some g2 := hp
    exact (Option.some_inj.mp hp2).symm

theorem foldlM_processBlock_sound (bs : List (List Char)) (g0 gr : Grid)
    (hf : bs.foldlM processBlockOpt g0 = some gr) :
    (WF g0 → WF gr) ∧ ∀ p v, lookup gr p = some v → v = 1 ∨ lookup g0 p = some v := by
  induction bs generalizing g0 with
  | nil =>
    simp only [List.foldlM_nil] at hf
    cases hf
    exact ⟨id, fun p v h => Or.inr h⟩
  | cons b bs ih =>
    rw [List.foldlM_cons] at hf
    cases hb : processBlockOpt g0 b with
    | none =>
      rw [hb] at hf
      cases hf
    | some g1 =>
      rw [hb] at hf
      have hf1 : bs.foldlM processBlockOpt g1 = some gr := hf
      obtain ⟨hWF1, hval1⟩ := ih g1 hf1
      obtain ⟨x, y, ho, hg1⟩ := processBlockOpt_some g0 g1 b hb
      constructor
      · intro hg0
        refine hWF1 ?_
        rw [hg1]
        exact WF_processRows x y g0 0 _ hg0
      · intro p v hv
        rcases hval1 p v hv with h1 | hlook
        · exact Or.inl h1
        · rw [hg1, lookup_processRows] at hlook
          by_cases hstar : ((((rustLines b).drop 1).enumFrom 0).any fun il =>
              il.2.enum.any fun jc =>
                decide (jc.2 = '*' ∧ p.x = x + (jc.1 : Int) ∧ p.y = y + (il.1 : Int))) = true
          · rw [if_pos hstar] at hlook
            exact Or.inl (Option.some_inj.mp hlook).symm
          · rw [if_neg hstar] at hlook
            exact Or.inr hlook

theorem fromStr_sound (s : List Char) (g : Grid) (hf : fromStr s = some g) :
    WF g ∧ ∀ p v, lookup g p = some v → v = 1 := by
  unfold fromStr at hf
  obtain ⟨hWF, hval⟩ := foldlM_processBlock_sound (blocksOf s) [] g hf
  refine ⟨hWF (by simp [WF]), ?_⟩
  intro p v hv
  rcases hval p v hv with h1 | hlook
  · exact h1
  · exact absurd hlook (by simp [lookup])

theorem foldlM_processBlock_none (bs : List (List Char)) (g0 : Grid)
    (hbad : ∃ b ∈ bs, readOrigin b = none) :
    bs.foldlM processBlockOpt g0 = none := by
  induction bs generalizing g0 with
  | nil =>
    rcases hbad with ⟨b, hb, _⟩
    cases hb
  | cons b bs ih =>
    rw [List.foldlM_cons]
    cases hb : processBlockOpt g0 b with
    | none => rfl
    | some g1 =>
      rcases hbad with ⟨b2, hb2, hbad2⟩
      rcases List.mem_cons.mp hb2 with heq | hmem
      · subst heq
        unfold processBlockOpt at hb
        rw [hbad2] at hb
        cases hb
      · exact ih g1 ⟨b2, hmem, hbad2⟩

/-! The counter-range invariant. -/

/-- All stored counters lie in the closed range `[1, 100]`. -/
def InRange (g : Grid) : Prop :=
  ∀ p v, lookup g p = some v → 1 ≤ v ∧ v ≤ 100

theorem InRange_next (g : Grid) (hg : WF g) (hr : InRange g) : InRange (next g) := by
  intro p v hv
  rw [lookup_next g p hg] at hv
  by_cases hcond : countFun g p = 3 ∨ (countFun g p = 2 ∧ lookup g p = some 1)
  · rw [if_pos hcond] at hv
    have h1 : 1 = v := Option.some_inj.mp hv
    omega
  · rw [if_neg hcond, lookup_age g p hg] at hv
    cases hl : lookup g p with
    | none =>
      rw [hl] at hv
      cases hv
    | some w =>
      rw [hl] at hv
      have hv2 : (if w < 100 then some (w + 1) else none) = some v := hv
      by_cases hw : w < 100
      · rw [if_pos hw] at hv2
        have : w + 1 = v := Option.some_inj.mp hv2
        have hb := hr p w hl
        omega
      · rw [if_neg hw] at hv2
        cases hv2

theorem WF_stepN (n : Nat) : ∀ g : Grid, WF g → WF (stepN n g) := by
  induction n with
  | zero => exact fun _ hg => hg
  | succ n ih => exact fun g hg => ih (next g) (WF_next g hg)

theorem InRange_stepN (n : Nat) : ∀ g : Grid, WF g → InRange g → InRange (stepN n g) := by
  induction n with
  | zero => exact fun _ _ hr => hr
  | succ n ih => exact fun g hg hr => ih (next g) (WF_next g hg) (InRange_next g hg hr)

theorem countFun_append (l1 l2 : Grid) :
    countFun (l1 ++ l2) = mergeCounts (countFun l1) (countFun l2) := by
  funext q
  unfold countFun mergeCounts neighborTargets
  rw [List.filter_append, List.map_append, List.flatten_append, List.count_append]

theorem next_singleton (p : Position) (v : Nat) (q : Position) :
    lookup (next [(p, v)]) q = if q = p ∧ v < 100 then some (v + 1) else none := by
  have hwf : WF [(p, v)] := by simp [WF]
  rw [lookup_next _ q hwf]
  have hcf : countFun [(p, v)] q ≤ 1 := by
    rw [countFun_cons]
    have h0 : countFun ([] : Grid) q = 0 := rfl
    rw [h0]
    by_cases hc : v = 1 ∧ (q.x - p.x, q.y - p.y) ∈ DIRS
    · rw [if_pos hc]
    · rw [if_neg hc]
      omega
  have hcond : ¬(countFun [(p, v)] q = 3
      ∨ (countFun [(p, v)] q = 2 ∧ lookup [(p, v)] q = some 1)) := by
    intro hc
    rcases hc with hc | ⟨hc, _⟩ <;> omega
  rw [if_neg hcond, lookup_age _ q hwf]
  by_cases hq : p = q
  · subst hq
    have hl : lookup [(p, v)] p = some v := by simp [lookup]
    rw [hl]
    show (if v < 100 then some (v + 1) else none) = if p = p ∧ v < 100 then some (v + 1) else none
    by_cases hv : v < 100
    · rw [if_pos hv, if_pos ⟨rfl, hv⟩]
    · rw [if_neg hv, if_neg (fun hc => hv hc.2)]
  · have hl : lookup [(p, v)] q = none := by simp [lookup, hq]
    rw [hl]
    show (none : Option Nat) = if q = p ∧ v < 100 then some (v + 1) else none
    rw [if_neg (fun hc => hq hc.1.symm)]

/-! Claim theorems. -/

/-- C1 counterexample: the packed key ignores `x` entirely when `y` is
negative, because `y as i64` sign-extends: the distinct in-range coordinates
`(0, -1)` and `(-1, -1)` hash to the same combined key. -/
theorem C1_counterexample :
    hashKey ⟨0, -1⟩ = hashKey ⟨-1, -1⟩
      ∧ (⟨0, -1⟩ : Position) ≠ ⟨-1, -1⟩
      ∧ InI32 0 ∧ InI32 (-1) :=
  ⟨by decide, by decide, ⟨by decide, by decide⟩, ⟨by decide, by decide⟩⟩

/-- C1 (amended): restricted to coordinates whose `y` is nonnegative (with
`x` anywhere in the signed 32-bit range), distinct coordinates always get
distinct combined keys. -/
theorem C1_hashKey_inj (x1 y1 x2 y2 : Int)
    (hx1 : InI32 x1) (hx2 : InI32 x2)
    (hy1 : 0 ≤ y1 ∧ y1 < 2 ^ 31) (hy2 : 0 ≤ y2 ∧ y2 < 2 ^ 31)
    (hne : (⟨x1, y1⟩ : Position) ≠ ⟨x2, y2⟩) :
    hashKey ⟨x1, y1⟩ ≠ hashKey ⟨x2, y2⟩ := by
  obtain ⟨hx1a, hx1b⟩ := hx1
  obtain ⟨hx2a, hx2b⟩ := hx2
  intro h
  apply hne
  unfold hashKey at h
  simp only at h
  have e1 : x1 * 2 ^ 32 % 2 ^ 64 = x1 % 2 ^ 32 * 2 ^ 32 := by omega
  have e2 : x2 * 2 ^ 32 % 2 ^ 64 = x2 % 2 ^ 32 * 2 ^ 32 := by omega
  have f1 : (x1 % 2 ^ 32 * 2 ^ 32).toNat = 2 ^ 32 * (x1 % 2 ^ 32).toNat := by omega
  have f2 : (x2 % 2 ^ 32 * 2 ^ 32).toNat = 2 ^ 32 * (x2 % 2 ^ 32).toNat := by omega
  have g1 : (y1 % 2 ^ 64).toNat = y1.toNat := by omega
  have g2 : (y2 % 2 ^ 64).toNat = y2.toNat := by omega
  rw [e1, e2, f1, f2, g1, g2] at h
  have o1 := @Nat.mul_add_lt_is_or 32 y1.toNat (by omega) ((x1 % 2 ^ 32).toNat)
  have o2 := @Nat.mul_add_lt_is_or 32 y2.toNat (by omega) ((x2 % 2 ^ 32).toNat)
  rw [← o1, ← o2] at h
  have hx : x1 = x2 := by omega
  have hy : y1 = y2 := by omega
  rw [hx, hy]

/-- C1 witness: the amended statement applied at the concrete distinct
coordinates `(5, 7)` and `(5, 8)`. -/
theorem C1_witness :
    InI32 5 ∧ (0 ≤ (7 : Int) ∧ (7 : Int) < 2 ^ 31)
      ∧ (⟨5, 7⟩ : Position) ≠ ⟨5, 8⟩
      ∧ hashKey ⟨5, 7⟩ ≠ hashKey ⟨5, 8⟩ :=
  ⟨⟨by decide, by decide⟩, ⟨by decide, by decide⟩, by decide,
    C1_hashKey_inj 5 7 5 8 ⟨by decide, by decide⟩ ⟨by decide, by decide⟩
      ⟨by decide, by decide⟩ ⟨by decide, by decide⟩ (by decide)⟩

/-- C2 counterexample: a cell with counter 99 is NOT dropped by the aging
pass although its counter reaches 100 upon increment; the code keeps it and
stores counter 100, dropping it only on the following step. -/
theorem C2_counterexample :
    WF [(⟨0, 0⟩, 99)] ∧ lookup [(⟨0, 0⟩, 99)] ⟨0, 0⟩ = some 99
      ∧ lookup (age [(⟨0, 0⟩, 99)]) ⟨0, 0⟩ = some 100
      ∧ lookup (age [(⟨0, 0⟩, 99)]) ⟨0, 0⟩ ≠ none :=
  ⟨by simp [WF], by decide, by decide, by decide⟩

/-- C2 (amended): the aging pass maps every present coordinate with counter
`v` to `v + 1` exactly when `v < 100` and drops it exactly when `v ≥ 100`
(when the increment would exceed 100); equivalently an isolated cell's
counter increases by 1 per step and the cell is removed on the step after
its counter reaches 100. -/
theorem C2_age_rule (g : Grid) (p : Position) (v w : Nat) (hg : WF g)
    (hv : lookup g p = some v) :
    (lookup (age g) p = if v < 100 then some (v + 1) else none)
      ∧ lookup (next [(p, w)]) p = if w < 100 then some (w + 1) else none := by
  constructor
  · rw [lookup_age g p hg, hv]
    rfl
  · rw [next_singleton p w p]
    by_cases hw : w < 100
    · rw [if_pos ⟨rfl, hw⟩, if_pos hw]
    · rw [if_neg (fun hc => hw hc.2), if_neg hw]

/-- C2 witness: the amended statement applied to a singleton grid holding
counter 5 (and an isolated cell of counter 7). -/
theorem C2_witness :
    WF [(⟨0, 0⟩, 5)] ∧ lookup [(⟨0, 0⟩, 5)] ⟨0, 0⟩ = some 5
      ∧ (lookup (age [(⟨0, 0⟩, 5)]) ⟨0, 0⟩ = if 5 < 100 then some 6 else none)
      ∧ lookup (next [(⟨0, 0⟩, 7)]) ⟨0, 0⟩ = if 7 < 100 then some 8 else none :=
  ⟨by simp [WF], by decide,
    (C2_age_rule [(⟨0, 0⟩, 5)] ⟨0, 0⟩ 5 7 (by simp [WF]) (by decide)).1,
    (C2_age_rule [(⟨0, 0⟩, 5)] ⟨0, 0⟩ 5 7 (by simp [WF]) (by decide)).2⟩

/-- C3: for every coordinate, the step inserts counter 1 (overwriting any
aged value) exactly when the number of its 8 unit-distance neighbors holding
counter exactly 1 in the pre-step grid is 3, or is 2 and the coordinate
itself held counter exactly 1 in the pre-step grid; otherwise the aged value
(if any) is kept.  The survival check reads the original grid. -/
theorem C3_step_rule (g : Grid) (q : Position) (hg : WF g) :
    lookup (next g) q
      = if liveNeighborCount g q = 3
          ∨ (liveNeighborCount g q = 2 ∧ lookup g q = some 1)
        then some 1 else lookup (age g) q := by
  rw [lookup_next g q hg, countFun_eq_liveNeighborCount g q hg]

/-- C3 witness: the rule applied to a concrete L-tromino of counter-1 cells,
at the corner coordinate that receives a birth. -/
theorem C3_witness :
    WF [(⟨0, 0⟩, 1), (⟨1, 0⟩, 1), (⟨0, 1⟩, 1)]
      ∧ lookup (next [(⟨0, 0⟩, 1), (⟨1, 0⟩, 1), (⟨0, 1⟩, 1)]) ⟨1, 1⟩
          = if liveNeighborCount [(⟨0, 0⟩, 1), (⟨1, 0⟩, 1), (⟨0, 1⟩, 1)] ⟨1, 1⟩ = 3
              ∨ (liveNeighborCount [(⟨0, 0⟩, 1), (⟨1, 0⟩, 1), (⟨0, 1⟩, 1)] ⟨1, 1⟩ = 2
                  ∧ lookup [(⟨0, 0⟩, 1), (⟨1, 0⟩, 1), (⟨0, 1⟩, 1)] ⟨1, 1⟩ = some 1)
            then some 1
            else lookup (age [(⟨0, 0⟩, 1), (⟨1, 0⟩, 1), (⟨0, 1⟩, 1)]) ⟨1, 1⟩ :=
  ⟨by simp [WF], C3_step_rule [(⟨0, 0⟩, 1), (⟨1, 0⟩, 1), (⟨0, 1⟩, 1)] ⟨1, 1⟩ (by simp [WF])⟩

/-- C4: the step is a function of the mapping only: permuting the entry list
never changes any looked-up value of the result; and the neighbor-count
merge (pointwise sum) is commutative and associative, with the count of a
concatenation being the merge of the counts, so partition boundaries cannot
affect the result. -/
theorem C4_deterministic :
    (∀ l1 l2 : Grid, l1.Perm l2 → WF l1 →
        ∀ q, lookup (next l1) q = lookup (next l2) q)
      ∧ (∀ f1 f2, mergeCounts f1 f2 = mergeCounts f2 f1)
      ∧ (∀ f1 f2 f3,
          mergeCounts (mergeCounts f1 f2) f3 = mergeCounts f1 (mergeCounts f2 f3))
      ∧ ∀ l1 l2 : Grid, countFun (l1 ++ l2) = mergeCounts (countFun l1) (countFun l2) := by
  refine ⟨lookup_next_perm, ?_, ?_, countFun_append⟩
  · intro f1 f2
    funext q
    simp [mergeCounts, Nat.add_comm]
  · intro f1 f2 f3
    funext q
    simp [mergeCounts, Nat.add_assoc]

/-- C4 witness: the permutation clause applied to a two-entry grid and its
swap, evaluated at a neighbor coordinate. -/
theorem C4_witness :
    ([(⟨0, 0⟩, 1), (⟨5, 5⟩, 2)] : Grid).Perm [(⟨5, 5⟩, 2), (⟨0, 0⟩, 1)]
      ∧ WF [(⟨0, 0⟩, 1), (⟨5, 5⟩, 2)]
      ∧ lookup (next [(⟨0, 0⟩, 1), (⟨5, 5⟩, 2)]) ⟨0, 1⟩
          = lookup (next [(⟨5, 5⟩, 2), (⟨0, 0⟩, 1)]) ⟨0, 1⟩ :=
  ⟨List.Perm.swap _ _ _, by simp [WF],
    C4_deterministic.1 _ _ (List.Perm.swap _ _ _) (by simp [WF]) ⟨0, 1⟩⟩

/-- C5: every grid reachable from a successfully parsed seed by repeatedly
stepping stores only counters in the closed range [1, 100]. -/
theorem C5_counter_range (s : List Char) (g0 : Grid) (n : Nat) (p : Position) (v : Nat)
    (hf : fromStr s = some g0) (hv : lookup (stepN n g0) p = some v) :
    1 ≤ v ∧ v ≤ 100 := by
  obtain ⟨hWF, hval⟩ := fromStr_sound s g0 hf
  have hr : InRange g0 := by
    intro p2 v2 hv2
    have h1 := hval p2 v2 hv2
    omega
  exact InRange_stepN n g0 hWF hr p v hv

/-- C5 witness: the range bound applied after one step of the parsed
two-cell seed. -/
theorem C5_witness :
    fromStr ("#P 0 0\n*.\n.*".toList) = some [(⟨1, 1⟩, 1), (⟨0, 0⟩, 1)]
      ∧ lookup (stepN 1 [(⟨1, 1⟩, 1), (⟨0, 0⟩, 1)]) ⟨0, 0⟩ = some 2
      ∧ 1 ≤ 2 ∧ 2 ≤ 100 :=
  ⟨by decide, by decide,
    (C5_counter_range ("#P 0 0\n*.\n.*".toList) [(⟨1, 1⟩, 1), (⟨0, 0⟩, 1)] 1 ⟨0, 0⟩ 2
      (by decide) (by decide)).1,
    (C5_counter_range ("#P 0 0\n*.\n.*".toList) [(⟨1, 1⟩, 1), (⟨0, 0⟩, 1)] 1 ⟨0, 0⟩ 2
      (by decide) (by decide)).2⟩

/-- C6: within a block with origin `(x, y)`, exactly the coordinates
`(x + j, y + i)` with a `*` at 0-indexed column `j` of 0-indexed row `i`
are inserted, always with counter 1, all other characters ignored; and the
concrete seed text `"#P 0 0\n*.\n.*"` parses to a grid holding exactly
`(0,0)` and `(1,1)`, each with counter 1. -/
theorem C6_parse_stars :
    (∀ (g : Grid) (x y : Int) (rows : List (List Char)) (q : Position),
        lookup (processRows x y g 0 rows) q
          = if starAt x y rows q then some 1 else lookup g q)
      ∧ fromStr ("#P 0 0\n*.\n.*".toList) = some [(⟨1, 1⟩, 1), (⟨0, 0⟩, 1)]
      ∧ ∀ q : Position, lookup [(⟨1, 1⟩, 1), (⟨0, 0⟩, 1)] q
          = if q = ⟨1, 1⟩ ∨ q = ⟨0, 0⟩ then some 1 else none := by
  refine ⟨?_, by decide, ?_⟩
  · intro g x y rows q
    exact lookup_processRows x y g 0 rows q
  · intro q
    by_cases h1 : (⟨1, 1⟩ : Position) = q
    · have hl : lookup [(⟨1, 1⟩, 1), (⟨0, 0⟩, 1)] q = some 1 := by
        simp [lookup, h1]
      rw [hl, if_pos (Or.inl h1.symm)]
    · by_cases h0 : (⟨0, 0⟩ : Position) = q
      · have hl : lookup [(⟨1, 1⟩, 1), (⟨0, 0⟩, 1)] q = some 1 := by
          simp [lookup, h1, h0]
        rw [hl, if_pos (Or.inr h0.symm)]
      · have hl : lookup [(⟨1, 1⟩, 1), (⟨0, 0⟩, 1)] q = none := by
          simp [lookup, h1, h0]
        rw [hl, if_neg]
        intro hc
        rcases hc with hc | hc
        · exact h1 hc.symm
        · exact h0 hc.symm

/-- C7: any block whose origin line does not yield two parsable integers
makes the whole load fail with no partial grid, while the empty input
parses to the empty grid. -/
theorem C7_fatal_load :
    (∀ s : List Char, (∃ b ∈ blocksOf s, readOrigin b = none) → fromStr s = none)
      ∧ fromStr [] = some [] :=
  ⟨fun s hbad => foldlM_processBlock_none (blocksOf s) [] hbad, rfl⟩

/-- C7 witness: the failure clause applied to the concrete seed text
`"#P a 0\n*"`, whose block origin field `a` is not an integer. -/
theorem C7_witness :
    (∃ b ∈ blocksOf ("#P a 0\n*".toList), readOrigin b = none)
      ∧ fromStr ("#P a 0\n*".toList) = none :=
  ⟨by decide, C7_fatal_load.1 ("#P a 0\n*".toList) (by decide)⟩

/-- C8 counterexample: on a 3×3 buffer with the cell at the camera center
and one pixel per cell, the rounded position `round(3/2) = 2` puts the only
non-background pixel at `(2, 2)`, not at `(width/2, height/2) = (1, 1)`,
which stays background. -/
theorem C8_counterexample :
    toImage [(⟨0, 0⟩, 1)] 3 3 0 0 1 (1, 1) = ⟨0, 0, 0⟩
      ∧ toImage [(⟨0, 0⟩, 1)] 3 3 0 0 1 (2, 2) = ⟨255, 255, 255⟩ := by
  have h1 := toImage_single_center 3 3 0 0 1 (1, 1) (by norm_num) (by norm_num)
  have h2 := toImage_single_center 3 3 0 0 1 (2, 2) (by norm_num) (by norm_num)
  constructor
  · rw [h1]
    have hne : ¬((((3 : Int) + 1) / 2 < 3 ∧ ((3 : Int) + 1) / 2 < 3)
        ∧ ((1 : Nat), (1 : Nat))
            = ((((3 : Int) + 1) / 2).toNat, (((3 : Int) + 1) / 2).toNat)) := by
      decide
    rw [if_neg hne]
  · rw [h2]
    have hpos : (((3 : Int) + 1) / 2 < 3 ∧ ((3 : Int) + 1) / 2 < 3)
        ∧ ((2 : Nat), (2 : Nat))
            = ((((3 : Int) + 1) / 2).toNat, (((3 : Int) + 1) / 2).toNat) := by
      decide
    rw [if_pos hpos]
    rfl

/-- C8 (amended): for width and height at least 2, rendering a single
counter-1 cell at the camera center with one pixel per cell paints exactly
one non-background (white) pixel, located at
`(round(width/2), round(height/2)) = ((width+1)/2, (height+1)/2)` — which
equals `(width/2, height/2)` only for even dimensions; out-of-bounds pixels
(as arise when a dimension is 1) are silently clipped. -/
theorem C8_center_pixel (w h cx cy : Int) (p : Nat × Nat) (hw : 2 ≤ w) (hh : 2 ≤ h) :
    toImage [(⟨cx, cy⟩, 1)] w h cx cy 1 p
      = if p = (((w + 1) / 2).toNat, ((h + 1) / 2).toNat)
        then ⟨255, 255, 255⟩ else ⟨0, 0, 0⟩ := by
  rw [toImage_single_center w h cx cy 1 p (by omega) (by omega)]
  have hbx : (w + 1) / 2 < w := by omega
  have hby : (h + 1) / 2 < h := by omega
  by_cases hp : p = (((w + 1) / 2).toNat, ((h + 1) / 2).toNat)
  · rw [if_pos ⟨⟨hbx, hby⟩, hp⟩, if_pos hp]
    rfl
  · rw [if_neg (fun hc => hp hc.2), if_neg hp]

/-- C8 witness: the amended statement on a 4×4 buffer, evaluated at the
painted pixel `(2, 2)`. -/
theorem C8_witness :
    (2 ≤ (4 : Int)) ∧ toImage [(⟨0, 0⟩, 1)] 4 4 0 0 1 (2, 2)
      = if ((2 : Nat), (2 : Nat)) = ((((4 : Int) + 1) / 2).toNat, (((4 : Int) + 1) / 2).toNat)
        then (⟨255, 255, 255⟩ : Rgb) else ⟨0, 0, 0⟩ :=
  ⟨by decide, C8_center_pixel 4 4 0 0 (2, 2) (by decide) (by decide)⟩

/-- C9: for every counter in the valid range `9 ≤ v ≤ 100` the color ramp's
fallback arm yields exactly `(0, 0, 100 - v)`, and the `u8` subtraction
`100 - v` agrees with true integer subtraction, so it never underflows or
wraps under the counter cap. -/
theorem C9_color_total (v : Nat) (h9 : 9 ≤ v) (h100 : v ≤ 100) :
    color v = ⟨0, 0, 100 - v⟩ ∧ (100 : Int) - (v : Int) = ((100 - v : Nat) : Int) := by
  constructor
  · interval_cases v <;> rfl
  · omega

/-- C9 witness: the ramp evaluated at counter 42. -/
theorem C9_witness :
    9 ≤ 42 ∧ 42 ≤ 100 ∧ color 42 = ⟨0, 0, 100 - 42⟩
      ∧ (100 : Int) - ((42 : Nat) : Int) = ((100 - 42 : Nat) : Int) :=
  ⟨by decide, by decide, (C9_color_total 42 (by decide) (by decide)).1,
    (C9_color_total 42 (by decide) (by decide)).2⟩

/-- C10: the step never removes a cell because of its neighbors: every
coordinate present with counter `v < 100` is still present after the step,
with counter `v + 1` (aged) or counter 1 (re-inserted by the birth/survival
branch); entries leave the grid only through the age cap. -/
theorem C10_no_starvation (g : Grid) (p : Position) (v : Nat)
    (hg : WF g) (hv : lookup g p = some v) (hlt : v < 100) :
    lookup (next g) p = some (v + 1) ∨ lookup (next g) p = some 1 := by
  rw [lookup_next g p hg]
  by_cases hcond : countFun g p = 3 ∨ (countFun g p = 2 ∧ lookup g p = some 1)
  · rw [if_pos hcond]
    exact Or.inr rfl
  · rw [if_neg hcond, lookup_age g p hg, hv]
    left
    show (if v < 100 then some (v + 1) else none) = some (v + 1)
    rw [if_pos hlt]

/-- C10 witness: an isolated cell with counter 5 survives the step as
counter 6. -/
theorem C10_witness :
    WF [(⟨0, 0⟩, 5)] ∧ lookup [(⟨0, 0⟩, 5)] ⟨0, 0⟩ = some 5 ∧ 5 < 100
      ∧ (lookup (next [(⟨0, 0⟩, 5)]) ⟨0, 0⟩ = some 6
          ∨ lookup (next [(⟨0, 0⟩, 5)]) ⟨0, 0⟩ = some 1) :=
  ⟨by simp [WF], by decide, by decide,
    C10_no_starvation [(⟨0, 0⟩, 5)] ⟨0, 0⟩ 5 (by simp [WF]) (by decide) (by decide)⟩
